import Mathlib

/-!
Verification of the DepthFrame processing service core: the SQLite-backed
depth store (`db/repository.py`) and the ingestion validation/resize
pipeline (`ingestion/pipeline.py`), shallowly embedded in Lean.

Modelling conventions:
- SQL `REAL` depths and float pixel values are modelled as `ℚ`;
  `NaN`/missing values are modelled as `none : Option ℚ`.
- The `image_scans` table (depth PRIMARY KEY, pixel_data BLOB) is an
  association list `List (ℚ × List ℕ)`; `INSERT OR REPLACE` is `upsertRow`.
- Python exceptions are values `PyError` carrying the exception class name
  and message; fallible operations return `Except PyError _`.
-/

namespace DepthFrame

/-- A stored pixel row: the bytes of one scanline BLOB (uint8 values). -/
abbrev PixRow := List Nat

/-- The `image_scans` table: depth-keyed rows. The PRIMARY KEY constraint is
the `Nodup` invariant on `storeKeys`, maintained by `upsertRow`. -/
abbrev Store := List (ℚ × PixRow)

/-- A Python exception, identified by class name and message. -/
structure PyError where
  kind : String
  msg : String
deriving DecidableEq

/-- Depths currently present in the table (the primary-key column). -/
def storeKeys (s : Store) : List ℚ := s.map Prod.fst

/-- SELECT pixel_data FROM image_scans WHERE depth = k (first match). -/
def lookupStore (k : ℚ) : Store → Option PixRow
  | [] => none
  | (d, r) :: t => if d = k then some r else lookupStore k t

/-- One `INSERT OR REPLACE INTO image_scans` statement: replace the row at
an existing depth in place, else append a new row. -/
def upsertRow : Store → ℚ → PixRow → Store
  | [], d, r => [(d, r)]
  | (d', r') :: t, d, r =>
      if d' = d then (d, r) :: t else (d', r') :: upsertRow t d r

/-- The `executemany` loop of `bulk_insert_scans`: upsert each (depth, row)
pair in order. -/
def upsertAll (s : Store) (l : List (ℚ × PixRow)) : Store :=
  l.foldl (fun acc p => upsertRow acc p.1 p.2) s

/-- Comparison of store rows by their depth key (the ORDER BY depth order
and the sort key of the cleaning stage). -/
def depthLE {α : Type} (p q : ℚ × α) : Prop := p.1 ≤ q.1

instance {α : Type} : DecidableRel (@depthLE α) :=
  fun p q => inferInstanceAs (Decidable (p.1 ≤ q.1))

instance {α : Type} : IsTotal (ℚ × α) depthLE :=
  ⟨fun p q => le_total p.1 q.1⟩

instance {α : Type} : IsTrans (ℚ × α) depthLE :=
  ⟨fun _ _ _ h1 h2 => le_trans h1 h2⟩

/-- ImageRepository.query_depth_range: SELECT the rows whose depth lies in
the inclusive range, ORDER BY depth. -/
def query_depth_range (s : Store) (depth_min depth_max : ℚ) : List (ℚ × PixRow) :=
  List.insertionSort depthLE
    (s.filter (fun r => decide (depth_min ≤ r.1) && decide (r.1 ≤ depth_max)))

/-- The ValueError raised by get_depth_bounds on an empty table. -/
def noScanDataError : PyError := ⟨"ValueError", "No scan data in database"⟩

/-- ImageRepository.get_depth_bounds: SELECT MIN(depth), MAX(depth); raises
`ValueError("No scan data in database")` when the table is empty. -/
def get_depth_bounds (s : Store) : Except PyError (ℚ × ℚ) :=
  match s with
  | [] => .error noScanDataError
  | r :: t =>
      .ok ((t.map Prod.fst).foldl min r.1, (t.map Prod.fst).foldl max r.1)

/-- ImageRepository.get_row_count: SELECT COUNT(*) FROM image_scans. -/
def get_row_count (s : Store) : Nat := s.length

/-- The dtype check of `bulk_insert_scans` on its 2D uint8 array argument:
a genuine 2D numpy uint8 array is rectangular with all values below 256. -/
def isUint8Matrix (px : List (List Nat)) : Bool :=
  (match px with
   | [] => true
   | r0 :: t => t.all (fun r => r.length == r0.length)) &&
  px.all (fun r => r.all (fun v => v ≤ 255))

/-- ImageRepository.bulk_insert_scans: validate shape and dtype, then upsert
every (depth, pixel row) pair in one transaction and return the number of
rows written. On a validation error the table is untouched. -/
def bulk_insert_scans (s : Store) (depths : List ℚ) (pixel_array : List (List Nat)) :
    Except PyError Nat × Store :=
  if depths.length ≠ pixel_array.length then
    (.error ⟨"ValueError",
       "Shape mismatch: " ++ toString depths.length ++ " depths vs "
         ++ toString pixel_array.length ++ " pixel rows"⟩, s)
  else if ¬ isUint8Matrix pixel_array then
    (.error ⟨"TypeError", "Expected uint8 pixel data"⟩, s)
  else
    (.ok depths.length, upsertAll s (depths.zip pixel_array))

/- Basic lemmas about the store operations. -/

def lookupStep (k : ℚ) (a : Option PixRow) (p : ℚ × PixRow) : Option PixRow :=
  if p.1 = k then some p.2 else a

def INTERPOLATION_METHODS : List (String × Nat) :=
  [("NEAREST", 0), ("BILINEAR", 1), ("BICUBIC", 2), ("AREA", 3), ("LANCZOS4", 4)]

/-- Dictionary lookup by method name. -/
def lookupMethod : List (String × Nat) → String → Option Nat
  | [], _ => none
  | (k, v) :: t, m => if k = m then some v else lookupMethod t m

/-- A single-quote character as a string (for Python repr formatting). -/
def sqStr : String := String.singleton (Char.ofNat 39)

/-- Python repr of one of the fixed method-name strings. -/
def pyRepr (sx : String) : String := sqStr ++ sx ++ sqStr

/-- The constant tail of the unknown-method error message: the Python repr
of the list of valid method names. -/
def availableMsg : String :=
  ". Available: [" ++
    String.intercalate ", " ((INTERPOLATION_METHODS.map Prod.fst).map pyRepr) ++ "]"

/-- The full resize_image error message for an unknown method name. -/
def unknownMethodMsg (method : String) : String :=
  "Unknown interpolation method: " ++ pyRepr method ++ availableMsg

/-- Clip a value to [0, 255] and cast to uint8; after the clip the value is
non-negative, so numpy's truncating cast is the floor. -/
def quantU8 (v : ℚ) : Nat := (⌊min (max v 0) 255⌋).toNat

/-- pipeline.resize_image: reject unknown method names with the enumerating
error, otherwise resample with the external backend at the flag for the
method, then clip to [0, 255] and quantize to uint8 as the final step. -/
def resize_image (cvResize : Nat → List (List ℚ) → Nat → List (List ℚ))
    (pixels : List (List ℚ)) (target_width : Nat) (method : String) :
    Except PyError (List (List Nat)) :=
  match lookupMethod INTERPOLATION_METHODS method with
  | none => .error ⟨"ValueError", unknownMethodMsg method⟩
  | some flag =>
      .ok ((cvResize flag pixels target_width).map (fun row => row.map quantU8))

def constResample (flag : Nat) (px : List (List ℚ)) (w : Nat) : List (List ℚ) :=
  px.map (fun _ => List.replicate w 300)

structure RawRow where
  depth : Option ℚ
  pixels : List (Option ℚ)
deriving DecidableEq

/-- Summary of the data-quality checks (pipeline.ValidationReport); fields
that can be NaN in the source (median step of an empty diff list, min/max
of a matrix containing NaN) are Option ℚ with none for NaN. -/
structure ValidationReport where
  raw_rows : Nat
  clean_rows : Nat
  null_rows_dropped : Nat
  duplicate_depths_dropped : Nat
  depth_min : ℚ
  depth_max : ℚ
  depth_step : Option ℚ
  is_monotonic : Bool
  pixel_min : Option ℚ
  pixel_max : Option ℚ
  original_width : Nat
deriving DecidableEq

/-- The (depths, pixels, report) triple returned by validate_and_clean. -/
structure CleanResult where
  depths : List ℚ
  pixels : List (List (Option ℚ))
  report : ValidationReport
deriving DecidableEq

/-- A row where every cell (depth and all pixels) is null (step 1 mask). -/
def fullyNull (r : RawRow) : Bool :=
  r.depth.isNone && r.pixels.all (fun o => o.isNone)

/-- Keep the first row at each depth: pandas duplicated with keep first. -/
def keepFirstByDepth : List ℚ → List (ℚ × List (Option ℚ)) → List (ℚ × List (Option ℚ))
  | _, [] => []
  | seen, x :: t =>
      if x.1 ∈ seen then keepFirstByDepth seen t
      else x :: keepFirstByDepth (x.1 :: seen) t

/-- Row-local imputation: a row containing NaN cells has them filled with
the numpy nanmean of the row; the nanmean of an all-NaN row is itself NaN
(a warning, not an error), so such a row stays all-NaN. -/
def imputeRow (row : List (Option ℚ)) : List (Option ℚ) :=
  if row.any (fun o => o.isNone) then
    if (row.filterMap id).length = 0 then row
    else row.map (fun o =>
      some (o.getD ((row.filterMap id).sum / ((row.filterMap id).length : ℚ))))
  else row

/-- All cells of the matrix in row-major order. -/
def flatCells (m : List (List (Option ℚ))) : List (Option ℚ) :=
  m.foldr (fun r acc => r ++ acc) []

/-- numpy min over a matrix: NaN as soon as any cell is NaN (NaN also for
the empty matrix, but that case raises first and is guarded). -/
def npMin (m : List (List (Option ℚ))) : Option ℚ :=
  let f := flatCells m
  if f.any (fun o => o.isNone) then none
  else
    match f.filterMap id with
    | [] => none
    | v :: vs => some (vs.foldl min v)

/-- numpy max over a matrix, with the same NaN propagation as npMin. -/
def npMax (m : List (List (Option ℚ))) : Option ℚ :=
  let f := flatCells m
  if f.any (fun o => o.isNone) then none
  else
    match f.filterMap id with
    | [] => none
    | v :: vs => some (vs.foldl max v)

/-- numpy clip of one cell to [0, 255]; NaN stays NaN. -/
def clipCell (o : Option ℚ) : Option ℚ := o.map (fun v => min (max v 0) 255)

/-- numpy median: sort and take the middle element, or the mean of the two
middle elements; NaN (none) for an empty list. -/
def npMedian (l : List ℚ) : Option ℚ :=
  if l.length = 0 then none
  else
    let s := List.insertionSort (· ≤ ·) l
    let n := l.length
    if n % 2 = 1 then some (s.getD (n / 2) 0)
    else some ((s.getD (n / 2 - 1) 0 + s.getD (n / 2) 0) / 2)

/-- Minimum of a depth list (the list is non-empty wherever this is used;
the default is never reached). -/
def listMin : List ℚ → ℚ
  | [] => 0
  | d :: t => t.foldl min d

/-- Maximum of a depth list, same proviso as listMin. -/
def listMax : List ℚ → ℚ
  | [] => 0
  | d :: t => t.foldl max d

/-- Steps 1 to 3 of validate_and_clean: drop fully-null rows, drop rows with
a null depth while extracting (depth, pixel row) pairs, and sort by depth
ascending (stable, preserving original order on equal depths). -/
def sortedPairs (rows : List RawRow) : List (ℚ × List (Option ℚ)) :=
  List.insertionSort depthLE
    ((rows.filter (fun r => ! fullyNull r)).filterMap
      (fun r => r.depth.map (fun d => (d, r.pixels))))

/-- Step 4: drop duplicate depths keeping the first occurrence. -/
def dedupedPairs (rows : List RawRow) : List (ℚ × List (Option ℚ)) :=
  keepFirstByDepth [] (sortedPairs rows)

/-- Step 5: the extracted pixel matrix after row-mean imputation. -/
def imputedPixels (rows : List RawRow) : List (List (Option ℚ)) :=
  ((dedupedPairs rows).map Prod.snd).map imputeRow

/-- The cleaned depth column. -/
def cleanDepths (rows : List RawRow) : List ℚ := (dedupedPairs rows).map Prod.fst

/-- The source's clip trigger: px_min below 0 or px_max above 255; a NaN
min/max (none) compares false on both sides, exactly as in numpy, so no
clip happens when the matrix still contains NaN. -/
def vcDoClip (rows : List RawRow) : Bool :=
  decide ((npMin (imputedPixels rows)).getD 0 < 0) ||
    decide (255 < (npMax (imputedPixels rows)).getD 0)

/-- Consecutive depth differences of the cleaned depth column. -/
def vcDiffs (rows : List RawRow) : List ℚ :=
  List.zipWith (fun a b => b - a) (cleanDepths rows) (cleanDepths rows).tail

/-- pipeline.validate_and_clean, translated stage by stage from the source:
drop fully-null rows, drop null-depth rows, sort by depth, drop duplicate
depths (keep first), row-mean-impute NaN pixels, clip to [0, 255] only when
the observed min/max lies outside it, and build the report. The only
failing path is numpy's min over a zero-size array; the nanmean of an
all-NaN row is NaN and does not raise. -/
def validate_and_clean (rows : List RawRow) : Except PyError CleanResult :=
  if (flatCells (imputedPixels rows)).length = 0 then
    .error ⟨"ValueError",
      "zero-size array to reduction operation minimum which has no identity"⟩
  else
    .ok {
      depths := cleanDepths rows,
      pixels :=
        if vcDoClip rows then (imputedPixels rows).map (fun row => row.map clipCell)
        else imputedPixels rows,
      report := {
        raw_rows := rows.length,
        clean_rows := (cleanDepths rows).length,
        null_rows_dropped := (rows.filter (fun r => fullyNull r)).length,
        duplicate_depths_dropped := (sortedPairs rows).length - (dedupedPairs rows).length,
        depth_min := listMin (cleanDepths rows),
        depth_max := listMax (cleanDepths rows),
        depth_step := npMedian (vcDiffs rows),
        is_monotonic := (vcDiffs rows).all (fun d => decide (0 < d)),
        pixel_min := npMin (imputedPixels rows),
        pixel_max := npMax (imputedPixels rows),
        original_width := ((imputedPixels rows).headD []).length } }

def allMissingPixelsInput : List RawRow := [⟨some 2, [none, none]⟩]

/-- C1 counterexample: on a row with valid depth 2 and all pixels missing,
validate_and_clean returns normally (numpy nanmean of an all-NaN row is NaN
with only a warning) and the output matrix still contains the NaN cells —
refuting both that the output never contains NaN and that this input is
treated as an error condition. -/
def c1Input : List RawRow := [⟨some 1, [some 10]⟩]

/-- The full result of validate_and_clean on c1Input. -/
def c1Result : CleanResult :=
  { depths := [1],
    pixels := [[some 10]],
    report := {
      raw_rows := 1, clean_rows := 1, null_rows_dropped := 0,
      duplicate_depths_dropped := 0, depth_min := 1, depth_max := 1,
      depth_step := none, is_monotonic := true,
      pixel_min := some 10, pixel_max := some 10, original_width := 1 } }

/-- C1 witness: the amended no-NaN theorem applied at the concrete input
c1Input, whose rows all have a present pixel. -/
def c3Input : List RawRow :=
  [⟨some 1, [some 10, some 20]⟩, ⟨some 1, [some 30, some 40]⟩,
   ⟨some 2, [some 5, none]⟩]

/-- C3: on [(1.0,[10,20]), (1.0,[30,40]), (2.0,[5,NaN])], validate_and_clean
drops the later duplicate of depth 1.0 keeping the first row [10,20],
imputes the missing pixel at depth 2.0 with the row mean 5 giving [5,5],
and returns depths [1.0, 2.0], pixels [[10,20],[5,5]] and
duplicate_depths_dropped = 1. -/
lemma lookupStore_upsertRow (k d : ℚ) (r : PixRow) (s : Store) :
    lookupStore k (upsertRow s d r) = if d = k then some r else lookupStore k s := by
  induction s with
  | nil => simp [upsertRow, lookupStore]
  | cons hd t ih =>
      obtain ⟨d', r'⟩ := hd
      by_cases hdd : d' = d
      · subst hdd
        simp [upsertRow, lookupStore]
        by_cases hk : d' = k <;> simp [hk, lookupStore]
      · simp only [upsertRow, if_neg hdd, lookupStore]
        by_cases hk : d' = k
        · subst hk
          have : ¬ d = d' := fun h => hdd h.symm
          simp [this]
        · simp [hk, ih]

lemma storeKeys_upsertRow_mem {d : ℚ} (r : PixRow) :
    ∀ {s : Store}, d ∈ storeKeys s → storeKeys (upsertRow s d r) = storeKeys s
  | [], h => by simp [storeKeys] at h
  | (d', r') :: t, h => by
      by_cases hdd : d' = d
      · subst hdd; simp [upsertRow, storeKeys]
      · have hmem : d ∈ storeKeys t := by
          rcases List.mem_cons.mp h with h | h
          · exact absurd h.symm hdd
          · exact h
        have ih := storeKeys_upsertRow_mem r hmem
        simp only [upsertRow, if_neg hdd, storeKeys, List.map_cons] at ih ⊢
        rw [ih]

lemma storeKeys_upsertRow_not_mem {d : ℚ} (r : PixRow) :
    ∀ {s : Store}, d ∉ storeKeys s → storeKeys (upsertRow s d r) = storeKeys s ++ [d]
  | [], _ => by simp [upsertRow, storeKeys]
  | (d', r') :: t, h => by
      have hdd : d' ≠ d := by
        intro hc; exact h (by simp [storeKeys, hc])
      have ht : d ∉ storeKeys t := fun hc => h (List.mem_cons_of_mem _ hc)
      have ih := storeKeys_upsertRow_not_mem r ht
      simp only [upsertRow, if_neg hdd, storeKeys, List.map_cons, List.cons_append] at ih ⊢
      rw [ih]

lemma nodup_storeKeys_upsertRow {d : ℚ} {s : Store} (r : PixRow)
    (h : (storeKeys s).Nodup) : (storeKeys (upsertRow s d r)).Nodup := by
  by_cases hm : d ∈ storeKeys s
  · rw [storeKeys_upsertRow_mem r hm]; exact h
  · rw [storeKeys_upsertRow_not_mem r hm]
    simpa [List.nodup_append] using ⟨h, hm⟩

/-- C2 helper: membership in the filtered, sorted query result. -/
lemma mem_query_depth_range (s : Store) (a b : ℚ) (r : ℚ × PixRow) :
    r ∈ query_depth_range s a b ↔ r ∈ s ∧ a ≤ r.1 ∧ r.1 ≤ b := by
  unfold query_depth_range
  rw [(List.perm_insertionSort depthLE _).mem_iff, List.mem_filter]
  simp

/-- C2: for every store state and bounds a, b, `query_depth_range a b`
returns rows sorted ascending by depth, and a row is returned iff it is
stored and its depth d satisfies a ≤ d ≤ b (inclusive); in particular an
empty range yields the empty list and never an error (the operation is a
total function). -/
theorem query_depth_range_spec (s : Store) (a b : ℚ) :
    List.Sorted depthLE (query_depth_range s a b) ∧
    ∀ r : ℚ × PixRow, r ∈ query_depth_range s a b ↔ r ∈ s ∧ a ≤ r.1 ∧ r.1 ≤ b :=
  ⟨List.sorted_insertionSort depthLE _, mem_query_depth_range s a b⟩

/- Lemmas for MIN/MAX folds used by get_depth_bounds. -/

lemma foldl_min_le_init (l : List ℚ) (a : ℚ) : l.foldl min a ≤ a := by
  induction l generalizing a with
  | nil => simp
  | cons x t ih =>
      calc (x :: t).foldl min a = t.foldl min (min a x) := rfl
        _ ≤ min a x := ih _
        _ ≤ a := min_le_left _ _

lemma foldl_min_le_mem {l : List ℚ} {x : ℚ} (a : ℚ) (h : x ∈ l) :
    l.foldl min a ≤ x := by
  induction l generalizing a with
  | nil => simp at h
  | cons y t ih =>
      rcases List.mem_cons.mp h with h | h
      · subst h
        calc (x :: t).foldl min a = t.foldl min (min a x) := rfl
          _ ≤ min a x := foldl_min_le_init _ _
          _ ≤ x := min_le_right _ _
      · exact ih _ h

lemma foldl_min_eq_init_or_mem (l : List ℚ) (a : ℚ) :
    l.foldl min a = a ∨ l.foldl min a ∈ l := by
  induction l generalizing a with
  | nil => left; rfl
  | cons x t ih =>
      rcases ih (min a x) with h | h
      · rcases min_cases a x with ⟨he, _⟩ | ⟨he, _⟩
        · left; simpa [he] using h
        · right
          show t.foldl min (min a x) ∈ x :: t
          rw [h, he]
          exact List.mem_cons_self _ _
      · right; exact List.mem_cons_of_mem _ h

lemma le_foldl_max_init (l : List ℚ) (a : ℚ) : a ≤ l.foldl max a := by
  induction l generalizing a with
  | nil => simp
  | cons x t ih =>
      calc a ≤ max a x := le_max_left _ _
        _ ≤ t.foldl max (max a x) := ih _
        _ = (x :: t).foldl max a := rfl

lemma mem_le_foldl_max {l : List ℚ} {x : ℚ} (a : ℚ) (h : x ∈ l) :
    x ≤ l.foldl max a := by
  induction l generalizing a with
  | nil => simp at h
  | cons y t ih =>
      rcases List.mem_cons.mp h with h | h
      · subst h
        calc x ≤ max a x := le_max_right _ _
          _ ≤ t.foldl max (max a x) := le_foldl_max_init _ _
          _ = (x :: t).foldl max a := rfl
      · exact ih _ h

lemma foldl_max_eq_init_or_mem (l : List ℚ) (a : ℚ) :
    l.foldl max a = a ∨ l.foldl max a ∈ l := by
  induction l generalizing a with
  | nil => left; rfl
  | cons x t ih =>
      rcases ih (max a x) with h | h
      · rcases max_cases a x with ⟨he, _⟩ | ⟨he, _⟩
        · left; simpa [he] using h
        · right
          show t.foldl max (max a x) ∈ x :: t
          rw [h, he]
          exact List.mem_cons_self _ _
      · right; exact List.mem_cons_of_mem _ h

/-- C9: on a non-empty store, get_depth_bounds returns `.ok (lo, hi)` where
lo is the minimum stored depth and hi the maximum (both attained by stored
rows); on the empty store it returns the distinct, named
`ValueError("No scan data in database")` condition, which is not an `.ok`
result (so callers can distinguish it from a zero-width answer like (0,0)). -/
theorem get_depth_bounds_spec (s : Store) :
    (s = [] → get_depth_bounds s = .error noScanDataError ∧
      ∀ p : ℚ × ℚ, get_depth_bounds s ≠ .ok p) ∧
    (s ≠ [] → ∃ lo hi, get_depth_bounds s = .ok (lo, hi) ∧
      (∀ r ∈ s, lo ≤ r.1 ∧ r.1 ≤ hi) ∧
      (∃ r ∈ s, r.1 = lo) ∧ (∃ r ∈ s, r.1 = hi)) := by
  constructor
  · rintro rfl
    exact ⟨rfl, fun p h => by simp [get_depth_bounds] at h⟩
  · intro hne
    match s with
    | [] => exact absurd rfl hne
    | r0 :: t =>
        refine ⟨(t.map Prod.fst).foldl min r0.1, (t.map Prod.fst).foldl max r0.1,
          rfl, ?_, ?_, ?_⟩
        · intro r hr
          rcases List.mem_cons.mp hr with h | h
          · subst h
            exact ⟨foldl_min_le_init _ _, le_foldl_max_init _ _⟩
          · refine ⟨foldl_min_le_mem _ ?_, mem_le_foldl_max _ ?_⟩ <;>
              exact List.mem_map.mpr ⟨r, h, rfl⟩
        · rcases foldl_min_eq_init_or_mem (t.map Prod.fst) r0.1 with h | h
          · exact ⟨r0, List.mem_cons_self _ _, h.symm⟩
          · rcases List.mem_map.mp h with ⟨r, hrt, hre⟩
            exact ⟨r, List.mem_cons_of_mem _ hrt, hre⟩
        · rcases foldl_max_eq_init_or_mem (t.map Prod.fst) r0.1 with h | h
          · exact ⟨r0, List.mem_cons_self _ _, h.symm⟩
          · rcases List.mem_map.mp h with ⟨r, hrt, hre⟩
            exact ⟨r, List.mem_cons_of_mem _ hrt, hre⟩

/-- C9 witness: at the one-row store [(3, [7])] bounds are (3, 3), and the
theorem's empty-store branch is exercised at []. -/
theorem get_depth_bounds_spec_witness :
    (get_depth_bounds [] = .error noScanDataError ∧
      ∀ p : ℚ × ℚ, get_depth_bounds [] ≠ .ok p) ∧
    (∃ lo hi, get_depth_bounds [((3 : ℚ), [7])] = .ok (lo, hi) ∧
      (∀ r ∈ [((3 : ℚ), [7])], lo ≤ r.1 ∧ r.1 ≤ hi) ∧
      (∃ r ∈ [((3 : ℚ), [7])], r.1 = lo) ∧ (∃ r ∈ [((3 : ℚ), [7])], r.1 = hi)) :=
  ⟨(get_depth_bounds_spec []).1 rfl,
   (get_depth_bounds_spec [((3 : ℚ), [7])]).2 (by decide)⟩

/- upsertAll machinery: keys, lookups and the extensionality of stores with
nodup keys (the PRIMARY KEY invariant). -/

lemma lookupStore_eq_none_of_not_mem {k : ℚ} :
    ∀ {s : Store}, k ∉ storeKeys s → lookupStore k s = none
  | [], _ => rfl
  | (d, r) :: t, h => by
      have hd : d ≠ k := fun hc => h (by simp [storeKeys, hc])
      have ht : k ∉ storeKeys t := fun hc => h (List.mem_cons_of_mem _ hc)
      simp [lookupStore, hd, lookupStore_eq_none_of_not_mem ht]

lemma mem_storeKeys_upsertRow {k d : ℚ} (r : PixRow) {s : Store}
    (h : k ∈ storeKeys s) : k ∈ storeKeys (upsertRow s d r) := by
  by_cases hm : d ∈ storeKeys s
  · rwa [storeKeys_upsertRow_mem r hm]
  · rw [storeKeys_upsertRow_not_mem r hm]; exact List.mem_append_left _ h

lemma mem_storeKeys_upsertRow_self (d : ℚ) (r : PixRow) (s : Store) :
    d ∈ storeKeys (upsertRow s d r) := by
  by_cases hm : d ∈ storeKeys s
  · rwa [storeKeys_upsertRow_mem r hm]
  · rw [storeKeys_upsertRow_not_mem r hm]
    exact List.mem_append_right _ (by simp)

lemma mem_storeKeys_upsertAll {k : ℚ} (l : List (ℚ × PixRow)) :
    ∀ (s : Store), k ∈ storeKeys s → k ∈ storeKeys (upsertAll s l) := by
  induction l with
  | nil => intro s h; exact h
  | cons p t ih =>
      intro s h
      show k ∈ storeKeys (upsertAll (upsertRow s p.1 p.2) t)
      exact ih _ (mem_storeKeys_upsertRow _ h)

lemma mem_storeKeys_upsertAll_of_mem {k : ℚ} :
    ∀ (l : List (ℚ × PixRow)) (s : Store), k ∈ l.map Prod.fst →
      k ∈ storeKeys (upsertAll s l) := by
  intro l
  induction l with
  | nil => intro s h; simp at h
  | cons p t ih =>
      intro s h
      show k ∈ storeKeys (upsertAll (upsertRow s p.1 p.2) t)
      rcases List.mem_cons.mp h with h | h
      · exact mem_storeKeys_upsertAll t _ (h ▸ mem_storeKeys_upsertRow_self p.1 p.2 s)
      · exact ih _ h

lemma storeKeys_upsertAll_of_subset :
    ∀ (l : List (ℚ × PixRow)) (s : Store), (∀ k ∈ l.map Prod.fst, k ∈ storeKeys s) →
      storeKeys (upsertAll s l) = storeKeys s := by
  intro l
  induction l with
  | nil => intro s _; rfl
  | cons p t ih =>
      intro s h
      have hp : p.1 ∈ storeKeys s := h p.1 (by simp)
      have heq : storeKeys (upsertRow s p.1 p.2) = storeKeys s :=
        storeKeys_upsertRow_mem p.2 hp
      show storeKeys (upsertAll (upsertRow s p.1 p.2) t) = storeKeys s
      rw [ih _ (fun k hk => heq ▸ h k (List.mem_cons_of_mem _ hk)), heq]

lemma nodup_storeKeys_upsertAll :
    ∀ (l : List (ℚ × PixRow)) (s : Store), (storeKeys s).Nodup →
      (storeKeys (upsertAll s l)).Nodup := by
  intro l
  induction l with
  | nil => intro s h; exact h
  | cons p t ih =>
      intro s h
      show (storeKeys (upsertAll (upsertRow s p.1 p.2) t)).Nodup
      exact ih _ (nodup_storeKeys_upsertRow p.2 h)

/-- The effect on a single key of replaying one (depth, row) pair. -/
lemma lookupStore_upsertAll (k : ℚ) :
    ∀ (l : List (ℚ × PixRow)) (s : Store),
      lookupStore k (upsertAll s l) = l.foldl (lookupStep k) (lookupStore k s) := by
  intro l
  induction l with
  | nil => intro s; rfl
  | cons p t ih =>
      intro s
      show lookupStore k (upsertAll (upsertRow s p.1 p.2) t)
        = t.foldl (lookupStep k) (lookupStep k (lookupStore k s) p)
      rw [ih]
      congr 1
      rw [lookupStore_upsertRow]
      rfl

lemma foldl_lookupStep_of_not_mem {k : ℚ} :
    ∀ {l : List (ℚ × PixRow)}, (∀ p ∈ l, p.1 ≠ k) →
      ∀ a, l.foldl (lookupStep k) a = a
  | [], _, _ => rfl
  | p :: t, h, a => by
      have hp : p.1 ≠ k := h p (List.mem_cons_self _ _)
      show t.foldl (lookupStep k) (lookupStep k a p) = a
      rw [show lookupStep k a p = a by simp [lookupStep, hp]]
      exact foldl_lookupStep_of_not_mem (fun q hq => h q (List.mem_cons_of_mem _ hq)) a

lemma foldl_lookupStep_const {k : ℚ} :
    ∀ {l : List (ℚ × PixRow)} {p0 : ℚ × PixRow}, p0 ∈ l → p0.1 = k →
      ∀ a b, l.foldl (lookupStep k) a = l.foldl (lookupStep k) b
  | [], p0, hm, _, _, _ => by simp at hm
  | p :: t, p0, hm, hk, a, b => by
      show t.foldl (lookupStep k) (lookupStep k a p) = t.foldl (lookupStep k) (lookupStep k b p)
      by_cases hp : p.1 = k
      · rw [show lookupStep k a p = some p.2 by simp [lookupStep, hp],
            show lookupStep k b p = some p.2 by simp [lookupStep, hp]]
      · have hpt : p0 ∈ t := by
          rcases List.mem_cons.mp hm with h | h
          · exact absurd (h ▸ hk) hp
          · exact h
        exact foldl_lookupStep_const hpt hk _ _

lemma foldl_lookupStep_idem (k : ℚ) (l : List (ℚ × PixRow)) (a : Option PixRow) :
    l.foldl (lookupStep k) (l.foldl (lookupStep k) a) = l.foldl (lookupStep k) a := by
  by_cases h : ∃ p ∈ l, p.1 = k
  · obtain ⟨p0, hm, hk⟩ := h
    exact foldl_lookupStep_const hm hk _ _
  · push_neg at h
    exact foldl_lookupStep_of_not_mem h _

/-- Stores with equal nodup key sequences and equal lookups are equal. -/
lemma store_ext : ∀ {s t : Store}, storeKeys s = storeKeys t →
    (storeKeys s).Nodup → (∀ k, lookupStore k s = lookupStore k t) → s = t
  | [], [], _, _, _ => rfl
  | [], (d', r') :: t, hk, _, _ => by simp [storeKeys] at hk
  | (d, r) :: s, [], hk, _, _ => by simp [storeKeys] at hk
  | (d, r) :: s, (d', r') :: t, hk, hn, hl => by
      have hkc : d = d' ∧ storeKeys s = storeKeys t := by
        simpa [storeKeys] using hk
      obtain ⟨hd, hkt⟩ := hkc
      subst hd
      have hr : r = r' := by
        have := hl d
        simpa [lookupStore] using this
      subst hr
      have hn' : (d :: storeKeys s).Nodup := hn
      have hds : d ∉ storeKeys s := (List.nodup_cons.mp hn').1
      have hdt : d ∉ storeKeys t := hkt ▸ hds
      have hnt : (storeKeys s).Nodup := (List.nodup_cons.mp hn').2
      have hlt : ∀ k, lookupStore k s = lookupStore k t := by
        intro k
        by_cases hkd : d = k
        · subst hkd
          rw [lookupStore_eq_none_of_not_mem hds, lookupStore_eq_none_of_not_mem hdt]
        · have := hl k
          simpa [lookupStore, hkd] using this
      rw [store_ext hkt hnt hlt]

/-- Replaying the same batch of upserts a second time does not change the
store, provided the initial keys were nodup (the PRIMARY KEY invariant). -/
lemma upsertAll_idem {s : Store} (l : List (ℚ × PixRow))
    (hn : (storeKeys s).Nodup) : upsertAll (upsertAll s l) l = upsertAll s l := by
  apply store_ext
  · exact storeKeys_upsertAll_of_subset l _ (fun k hk => mem_storeKeys_upsertAll_of_mem l s hk)
  · exact nodup_storeKeys_upsertAll l _ (nodup_storeKeys_upsertAll l s hn)
  · intro k
    rw [lookupStore_upsertAll, lookupStore_upsertAll]
    exact foldl_lookupStep_idem k l _

/- Counting lemmas: how many rows a batch of upserts can add. -/

lemma length_storeKeys_upsertRow_le (s : Store) (d : ℚ) (r : PixRow) :
    (storeKeys (upsertRow s d r)).length ≤ (storeKeys s).length + 1 := by
  by_cases hm : d ∈ storeKeys s
  · rw [storeKeys_upsertRow_mem r hm]; omega
  · rw [storeKeys_upsertRow_not_mem r hm]; simp

lemma length_storeKeys_le_upsertRow (s : Store) (d : ℚ) (r : PixRow) :
    (storeKeys s).length ≤ (storeKeys (upsertRow s d r)).length := by
  by_cases hm : d ∈ storeKeys s
  · rw [storeKeys_upsertRow_mem r hm]
  · rw [storeKeys_upsertRow_not_mem r hm]; simp

lemma length_storeKeys_upsertAll_le :
    ∀ (l : List (ℚ × PixRow)) (s : Store),
      (storeKeys (upsertAll s l)).length ≤ (storeKeys s).length + l.length := by
  intro l
  induction l with
  | nil => intro s; simp [upsertAll]
  | cons p t ih =>
      intro s
      have h1 := ih (upsertRow s p.1 p.2)
      have h2 := length_storeKeys_upsertRow_le s p.1 p.2
      show (storeKeys (upsertAll (upsertRow s p.1 p.2) t)).length ≤ _
      simp only [List.length_cons]
      omega

lemma length_storeKeys_le_upsertAll :
    ∀ (l : List (ℚ × PixRow)) (s : Store),
      (storeKeys s).length ≤ (storeKeys (upsertAll s l)).length := by
  intro l
  induction l with
  | nil => intro s; exact le_refl _
  | cons p t ih =>
      intro s
      have h1 := ih (upsertRow s p.1 p.2)
      have h2 := length_storeKeys_le_upsertRow s p.1 p.2
      show (storeKeys s).length ≤ (storeKeys (upsertAll (upsertRow s p.1 p.2) t)).length
      omega

lemma length_upsertAll_lt_of_mem :
    ∀ (l : List (ℚ × PixRow)) (s : Store), (∃ k ∈ l.map Prod.fst, k ∈ storeKeys s) →
      (storeKeys (upsertAll s l)).length < (storeKeys s).length + l.length := by
  intro l
  induction l with
  | nil => intro s h; simp at h
  | cons p t ih =>
      intro s h
      show (storeKeys (upsertAll (upsertRow s p.1 p.2) t)).length < _
      simp only [List.length_cons]
      by_cases hp : p.1 ∈ storeKeys s
      · have heq : storeKeys (upsertRow s p.1 p.2) = storeKeys s :=
          storeKeys_upsertRow_mem p.2 hp
        have := length_storeKeys_upsertAll_le t (upsertRow s p.1 p.2)
        rw [heq] at this
        omega
      · obtain ⟨k, hkl, hks⟩ := h
        have hkt : k ∈ t.map Prod.fst := by
          rcases List.mem_cons.mp hkl with h | h
          · exact absurd (h ▸ hks) hp
          · exact h
        have hks' : k ∈ storeKeys (upsertRow s p.1 p.2) := mem_storeKeys_upsertRow _ hks
        have hlt := ih (upsertRow s p.1 p.2) ⟨k, hkt, hks'⟩
        have hle := length_storeKeys_upsertRow_le s p.1 p.2
        omega

lemma length_upsertAll_lt_of_dup :
    ∀ (l : List (ℚ × PixRow)) (s : Store), ¬ (l.map Prod.fst).Nodup →
      (storeKeys (upsertAll s l)).length < (storeKeys s).length + l.length := by
  intro l
  induction l with
  | nil => intro s h; exact absurd List.nodup_nil h
  | cons p t ih =>
      intro s h
      show (storeKeys (upsertAll (upsertRow s p.1 p.2) t)).length < _
      simp only [List.length_cons]
      by_cases hdup : (t.map Prod.fst).Nodup
      · have hmem : p.1 ∈ t.map Prod.fst := by
          by_contra hc
          exact h (List.nodup_cons.mpr ⟨hc, hdup⟩)
        have hself : p.1 ∈ storeKeys (upsertRow s p.1 p.2) :=
          mem_storeKeys_upsertRow_self p.1 p.2 s
        have hlt := length_upsertAll_lt_of_mem t (upsertRow s p.1 p.2) ⟨p.1, hmem, hself⟩
        have hle := length_storeKeys_upsertRow_le s p.1 p.2
        omega
      · have hlt := ih (upsertRow s p.1 p.2) hdup
        have hle := length_storeKeys_upsertRow_le s p.1 p.2
        omega

/-- C5: depth uniqueness is an invariant: a store with nodup depth keys
keeps nodup keys under any sequence of upserts (so no two stored rows ever
share a depth), and upserting at an already-present depth replaces that
row's content without changing the total row count. -/
theorem depth_uniqueness_invariant (s : Store) (l : List (ℚ × PixRow))
    (d : ℚ) (r : PixRow) (hn : (storeKeys s).Nodup) :
    (storeKeys (upsertAll s l)).Nodup ∧
    (d ∈ storeKeys s →
      get_row_count (upsertRow s d r) = get_row_count s ∧
      lookupStore d (upsertRow s d r) = some r) := by
  refine ⟨nodup_storeKeys_upsertAll l s hn, fun hm => ⟨?_, ?_⟩⟩
  · have h := congrArg List.length (storeKeys_upsertRow_mem r hm)
    simpa [storeKeys, get_row_count] using h
  · rw [lookupStore_upsertRow]; simp

/-- C5 witness: on the store [(1, [2])] with nodup keys, upserting depth 1
with row [9] keeps the count at 1 and stores [9]; bulk-upserting [(3, [4])]
keeps keys nodup. -/
theorem depth_uniqueness_invariant_witness :
    (storeKeys (upsertAll [((1 : ℚ), [2])] [((3 : ℚ), [4])])).Nodup ∧
    ((1 : ℚ) ∈ storeKeys [((1 : ℚ), [2])] →
      get_row_count (upsertRow [((1 : ℚ), [2])] 1 [9]) = get_row_count [((1 : ℚ), [2])] ∧
      lookupStore 1 (upsertRow [((1 : ℚ), [2])] 1 [9]) = some [9]) :=
  depth_uniqueness_invariant [((1 : ℚ), [2])] [((3 : ℚ), [4])] 1 [9] (by decide)

/-- C4: bulk_insert_scans is idempotent: starting from any store satisfying
the PRIMARY KEY invariant, writing the same valid (depths, pixel rows)
batch twice leaves exactly the state of writing it once; consequently
get_row_count and every query_depth_range result are unchanged by the
second write. -/
theorem bulk_insert_scans_idempotent (s : Store) (depths : List ℚ)
    (px : List (List Nat)) (hn : (storeKeys s).Nodup)
    (hlen : depths.length = px.length) (hu8 : isUint8Matrix px = true) :
    (bulk_insert_scans (bulk_insert_scans s depths px).2 depths px).2
      = (bulk_insert_scans s depths px).2 ∧
    get_row_count (bulk_insert_scans (bulk_insert_scans s depths px).2 depths px).2
      = get_row_count (bulk_insert_scans s depths px).2 ∧
    ∀ a b : ℚ,
      query_depth_range (bulk_insert_scans (bulk_insert_scans s depths px).2 depths px).2 a b
        = query_depth_range (bulk_insert_scans s depths px).2 a b := by
  have hstate : (bulk_insert_scans (bulk_insert_scans s depths px).2 depths px).2
      = (bulk_insert_scans s depths px).2 := by
    simp only [bulk_insert_scans, hlen, hu8, ne_eq, not_true_eq_false, if_false,
      Bool.true_eq_false, if_true]
    exact upsertAll_idem _ hn
  exact ⟨hstate, by rw [hstate], fun a b => by rw [hstate]⟩

/-- C4 witness: from the empty store, writing depths [1] with rows [[7]]
twice equals writing it once. -/
theorem bulk_insert_scans_idempotent_witness :
    (bulk_insert_scans (bulk_insert_scans [] [(1 : ℚ)] [[7]]).2 [(1 : ℚ)] [[7]]).2
      = (bulk_insert_scans [] [(1 : ℚ)] [[7]]).2 ∧
    get_row_count (bulk_insert_scans (bulk_insert_scans [] [(1 : ℚ)] [[7]]).2 [(1 : ℚ)] [[7]]).2
      = get_row_count (bulk_insert_scans [] [(1 : ℚ)] [[7]]).2 ∧
    ∀ a b : ℚ,
      query_depth_range (bulk_insert_scans (bulk_insert_scans [] [(1 : ℚ)] [[7]]).2 [(1 : ℚ)] [[7]]).2 a b
        = query_depth_range (bulk_insert_scans [] [(1 : ℚ)] [[7]]).2 a b :=
  bulk_insert_scans_idempotent [] [(1 : ℚ)] [[7]] (by decide) rfl rfl

/-- C6: bulk_insert_scans validates before touching storage: on a length
mismatch or a non-uint8 pixel matrix it returns a ValueError or TypeError
and the store is returned entirely unchanged (no partial write). -/
theorem bulk_insert_scans_validates_before_write (s : Store) (depths : List ℚ)
    (px : List (List Nat))
    (h : depths.length ≠ px.length ∨ isUint8Matrix px = false) :
    (bulk_insert_scans s depths px).2 = s ∧
    ∃ e, (bulk_insert_scans s depths px).1 = .error e ∧
      (e.kind = "ValueError" ∨ e.kind = "TypeError") := by
  by_cases hlen : depths.length = px.length
  · have hu8 : isUint8Matrix px = false := by
      rcases h with h | h
      · exact absurd hlen h
      · exact h
    refine ⟨?_, ⟨"TypeError", "Expected uint8 pixel data"⟩, ?_, Or.inr rfl⟩ <;>
      simp [bulk_insert_scans, hlen, hu8]
  · refine ⟨?_, ⟨"ValueError",
      "Shape mismatch: " ++ toString depths.length ++ " depths vs "
        ++ toString px.length ++ " pixel rows"⟩, ?_, Or.inl rfl⟩ <;>
      simp [bulk_insert_scans, hlen]

/-- C6 witness: one depth with zero pixel rows is rejected with an error and
the store [(5, [1])] is unchanged. -/
theorem bulk_insert_scans_validates_before_write_witness :
    (bulk_insert_scans [((5 : ℚ), [1])] [(1 : ℚ)] []).2 = [((5 : ℚ), [1])] ∧
    ∃ e, (bulk_insert_scans [((5 : ℚ), [1])] [(1 : ℚ)] []).1 = .error e ∧
      (e.kind = "ValueError" ∨ e.kind = "TypeError") :=
  bulk_insert_scans_validates_before_write [((5 : ℚ), [1])] [(1 : ℚ)] [] (Or.inl (by decide))

/-- C10: on a valid batch, bulk_insert_scans returns the length of the
depths list as its count — even when the batch repeats a depth, in which
case the returned count strictly exceeds the number of rows actually added
to the store (count of rows after minus before). -/
theorem bulk_insert_scans_count (s : Store) (depths : List ℚ)
    (px : List (List Nat)) (hlen : depths.length = px.length)
    (hu8 : isUint8Matrix px = true) :
    (bulk_insert_scans s depths px).1 = .ok depths.length ∧
    (¬ depths.Nodup →
      get_row_count (bulk_insert_scans s depths px).2 - get_row_count s
        < depths.length) := by
  constructor
  · simp [bulk_insert_scans, hlen, hu8]
  · intro hdup
    have hzip : (depths.zip px).map Prod.fst = depths :=
      List.map_fst_zip depths px (le_of_eq hlen)
    have hdup' : ¬ ((depths.zip px).map Prod.fst).Nodup := by rw [hzip]; exact hdup
    have hlt := length_upsertAll_lt_of_dup (depths.zip px) s hdup'
    have hmono := length_storeKeys_le_upsertAll (depths.zip px) s
    have hzlen : (depths.zip px).length = depths.length := by
      rw [List.length_zip, hlen, min_self]
    have hpos : 0 < depths.length := by
      cases depths with
      | nil => exact absurd List.nodup_nil hdup
      | cons a t => simp
    have hstate : (bulk_insert_scans s depths px).2 = upsertAll s (depths.zip px) := by
      simp [bulk_insert_scans, hlen, hu8]
    rw [hstate]
    simp only [get_row_count, storeKeys, List.length_map] at hlt hmono ⊢
    omega

/-- C10 witness: writing depths [1, 1] with rows [[2], [3]] into the empty
store returns count 2, while only one row is actually added. -/
theorem bulk_insert_scans_count_witness :
    (bulk_insert_scans [] [(1 : ℚ), 1] [[2], [3]]).1 = .ok ([(1 : ℚ), 1]).length ∧
    (¬ ([(1 : ℚ), 1]).Nodup →
      get_row_count (bulk_insert_scans [] [(1 : ℚ), 1] [[2], [3]]).2 - get_row_count []
        < ([(1 : ℚ), 1]).length) :=
  bulk_insert_scans_count [] [(1 : ℚ), 1] [[2], [3]] rfl rfl

/- Resize stage (pipeline.resize_image). The cv2.resize call is an external
library routine, not code of this repository: it is abstracted as a function
parameter, constrained in the theorems only by its documented contract that
the output has the input's row count and target_width columns. The method
table, the unknown-method error and the clip-and-quantize step are
translated from the source. -/

/-- INTERPOLATION_METHODS: config strings to OpenCV interpolation flags. -/
lemma lookupMethod_eq_none :
    ∀ (l : List (String × Nat)) (m : String), m ∉ l.map Prod.fst →
      lookupMethod l m = none
  | [], _, _ => rfl
  | (k, v) :: t, m, h => by
      have hk : k ≠ m := fun hc => h (by simp [hc])
      have ht : m ∉ t.map Prod.fst := fun hc => h (List.mem_cons_of_mem _ hc)
      simp [lookupMethod, hk, lookupMethod_eq_none t m ht]

lemma lookupMethod_isSome_of_mem :
    ∀ (l : List (String × Nat)) (m : String), m ∈ l.map Prod.fst →
      ∃ flag, lookupMethod l m = some flag
  | [], m, h => by simp at h
  | (k, v) :: t, m, h => by
      by_cases hk : k = m
      · exact ⟨v, by simp [lookupMethod, hk]⟩
      · have hmt : m ∈ t.map Prod.fst := by
          rcases List.mem_cons.mp h with h | h
          · exact absurd h.symm hk
          · exact h
        obtain ⟨flag, hflag⟩ := lookupMethod_isSome_of_mem t m hmt
        exact ⟨flag, by simp [lookupMethod, hk, hflag]⟩

lemma quantU8_le_255 (v : ℚ) : quantU8 v ≤ 255 := by
  unfold quantU8
  have h1 : min (max v 0) 255 ≤ (255 : ℚ) := min_le_right _ _
  have h2 : ⌊min (max v 0) 255⌋ ≤ ⌊(255 : ℚ)⌋ := Int.floor_le_floor h1
  have h3 : ⌊(255 : ℚ)⌋ = 255 := by norm_num
  omega

/-- C7: for every pixel matrix, every target width at least 1 and every one
of the five supported method names, resize_image succeeds and returns a
matrix with the same row count, every row of length target_width, and every
value a uint8 value bounded by 255 regardless of the input range; the
external resampler is abstracted by its shape contract. -/
theorem resize_image_shape_and_range
    (cvResize : Nat → List (List ℚ) → Nat → List (List ℚ))
    (hcv : ∀ flag px w, (cvResize flag px w).length = px.length ∧
      ∀ row ∈ cvResize flag px w, row.length = w)
    (pixels : List (List ℚ)) (W1 : Nat) (hW : 1 ≤ W1) (method : String)
    (hm : method ∈ INTERPOLATION_METHODS.map Prod.fst) :
    ∃ out, resize_image cvResize pixels W1 method = .ok out ∧
      out.length = pixels.length ∧
      (∀ row ∈ out, row.length = W1) ∧
      (∀ row ∈ out, ∀ v ∈ row, v ≤ 255) := by
  obtain ⟨flag, hflag⟩ := lookupMethod_isSome_of_mem INTERPOLATION_METHODS method hm
  refine ⟨(cvResize flag pixels W1).map (fun row => row.map quantU8),
    by simp [resize_image, hflag], ?_, ?_, ?_⟩
  · rw [List.length_map]
    exact (hcv flag pixels W1).1
  · intro row hrow
    rcases List.mem_map.mp hrow with ⟨r, hr, rfl⟩
    rw [List.length_map]
    exact (hcv flag pixels W1).2 r hr
  · intro row hrow v hv
    rcases List.mem_map.mp hrow with ⟨r, _, rfl⟩
    rcases List.mem_map.mp hv with ⟨x, _, rfl⟩
    exact quantU8_le_255 x

/-- A trivially shape-correct resampling backend, used to instantiate the
abstract cv2.resize parameter in witnesses; it outputs the out-of-range
value 300 so the clip step is exercised. -/
lemma constResample_shape (flag : Nat) (px : List (List ℚ)) (w : Nat) :
    (constResample flag px w).length = px.length ∧
    ∀ row ∈ constResample flag px w, row.length = w := by
  constructor
  · simp [constResample]
  · intro row hrow
    rcases List.mem_map.mp hrow with ⟨r, _, rfl⟩
    simp

/-- C7 witness: resizing the 1-by-2 matrix [[100, 300]] to width 3 with the
AREA method through the shape-correct backend yields a 1-by-3 uint8 matrix
with values bounded by 255. -/
theorem resize_image_shape_and_range_witness :
    ∃ out, resize_image constResample [[(100 : ℚ), 300]] 3 "AREA" = .ok out ∧
      out.length = ([[(100 : ℚ), 300]]).length ∧
      (∀ row ∈ out, row.length = 3) ∧
      (∀ row ∈ out, ∀ v ∈ row, v ≤ 255) :=
  resize_image_shape_and_range constResample constResample_shape
    [[(100 : ℚ), 300]] 3 (by decide) "AREA" (by decide)

/-- C8: for any method name outside the supported set, resize_image fails
with the ValueError whose message enumerates every valid method name (each
name occurs in the message), and the result does not depend on the
resampling backend at all — no resampling is performed. -/
theorem resize_image_unknown_method
    (cvResize : Nat → List (List ℚ) → Nat → List (List ℚ))
    (pixels : List (List ℚ)) (W1 : Nat) (method : String)
    (hm : method ∉ INTERPOLATION_METHODS.map Prod.fst) :
    resize_image cvResize pixels W1 method
      = .error ⟨"ValueError", unknownMethodMsg method⟩ ∧
    ∀ name ∈ INTERPOLATION_METHODS.map Prod.fst,
      name.data <:+: (unknownMethodMsg method).data := by
  constructor
  · simp [resize_image, lookupMethod_eq_none INTERPOLATION_METHODS method hm]
  · intro name hname
    have h1 : name.data <:+: availableMsg.data := by
      simp only [INTERPOLATION_METHODS, List.map_cons, List.map_nil,
        List.mem_cons, List.not_mem_nil, or_false] at hname
      rcases hname with rfl | rfl | rfl | rfl | rfl <;> decide
    have h2 : availableMsg.data <:+ (unknownMethodMsg method).data :=
      ⟨("Unknown interpolation method: " ++ pyRepr method).data, rfl⟩
    exact h1.trans h2.isInfix

/-- C8 witness: the unsupported name CUBIC is rejected with the enumerating
error message, independently of the backend. -/
theorem resize_image_unknown_method_witness :
    resize_image constResample [[(1 : ℚ)]] 1 "CUBIC"
      = .error ⟨"ValueError", unknownMethodMsg "CUBIC"⟩ ∧
    ∀ name ∈ INTERPOLATION_METHODS.map Prod.fst,
      name.data <:+: (unknownMethodMsg "CUBIC").data :=
  resize_image_unknown_method constResample [[(1 : ℚ)]] 1 "CUBIC" (by decide)

/- Validation and cleaning stage (pipeline.validate_and_clean). A raw CSV
row has an optional depth and a list of optional pixel cells; none models a
null/NaN cell exactly as pandas/numpy treat missing values. -/

/-- One raw table row: the depth column plus the pixel columns. -/
lemma mem_keepFirstByDepth {x : ℚ × List (Option ℚ)} :
    ∀ (seen : List ℚ) (l : List (ℚ × List (Option ℚ))),
      x ∈ keepFirstByDepth seen l → x ∈ l := by
  intro seen l
  induction l generalizing seen with
  | nil => intro h; exact absurd h (List.not_mem_nil x)
  | cons y t ih =>
      intro h
      simp only [keepFirstByDepth] at h
      split at h
      · exact List.mem_cons_of_mem _ (ih _ h)
      · rcases List.mem_cons.mp h with h | h
        · exact h ▸ List.mem_cons_self _ _
        · exact List.mem_cons_of_mem _ (ih _ h)

/-- Every cleaned pair comes from an input row with that depth and exactly
those pixel cells. -/
lemma exists_source_row_of_mem_dedupedPairs {rows : List RawRow}
    {p : ℚ × List (Option ℚ)} (hp : p ∈ dedupedPairs rows) :
    ∃ r ∈ rows, r.depth = some p.1 ∧ p.2 = r.pixels := by
  have h1 : p ∈ sortedPairs rows := mem_keepFirstByDepth _ _ hp
  have h2 := (List.perm_insertionSort depthLE _).mem_iff.mp h1
  rcases List.mem_filterMap.mp h2 with ⟨r, hr, hmap⟩
  rcases Option.map_eq_some'.mp hmap with ⟨d, hd, hpair⟩
  refine ⟨r, (List.mem_filter.mp hr).1, ?_, ?_⟩
  · rw [hd]; rw [← hpair]
  · rw [← hpair]

lemma imputeRow_all_some {row : List (Option ℚ)}
    (h : row.any (fun o => o.isSome) = true) :
    ∀ o ∈ imputeRow row, o.isSome = true := by
  rcases List.any_eq_true.mp h with ⟨v, hv, hvs⟩
  obtain ⟨x, hx⟩ := Option.isSome_iff_exists.mp hvs
  subst hx
  intro o ho
  unfold imputeRow at ho
  by_cases hnan : row.any (fun o => o.isNone) = true
  · rw [if_pos hnan] at ho
    have hmem : x ∈ row.filterMap id := List.mem_filterMap.mpr ⟨some x, hv, rfl⟩
    have hne : ¬ (row.filterMap id).length = 0 := by
      intro hlen
      rw [List.length_eq_zero.mp hlen] at hmem
      exact List.not_mem_nil x hmem
    rw [if_neg hne] at ho
    rcases List.mem_map.mp ho with ⟨u, _, rfl⟩
    rfl
  · rw [if_neg hnan] at ho
    cases o with
    | some w => rfl
    | none => exact absurd (List.any_eq_true.mpr ⟨none, ho, rfl⟩) hnan

lemma clipCell_isSome {o : Option ℚ} (h : o.isSome = true) :
    (clipCell o).isSome = true := by
  cases o with
  | none => exact absurd h (by simp)
  | some v => rfl

/-- C1 (amended): if every input row carrying a valid depth has at least
one non-missing pixel cell, then whenever validate_and_clean returns, its
output pixel matrix contains no NaN/missing value. (The unamended claim is
refuted by validate_and_clean_emits_nan_on_all_missing_row: a row with a
valid depth and all pixels missing is returned with NaN pixels, not treated
as an error.) -/
theorem validate_and_clean_no_nan_of_pixel_present (rows : List RawRow)
    (h : ∀ r ∈ rows, r.depth.isSome = true →
      r.pixels.any (fun o => o.isSome) = true)
    (res : CleanResult) (hok : validate_and_clean rows = .ok res) :
    ∀ prow ∈ res.pixels, ∀ o ∈ prow, o.isSome = true := by
  have key : ∀ prow ∈ imputedPixels rows, ∀ o ∈ prow, o.isSome = true := by
    intro prow hprow o ho
    rcases List.mem_map.mp hprow with ⟨row0, hrow0, rfl⟩
    rcases List.mem_map.mp hrow0 with ⟨p, hp, rfl⟩
    rcases exists_source_row_of_mem_dedupedPairs hp with ⟨r, hr, hdep, hpix⟩
    have hany : p.2.any (fun oo => oo.isSome) = true := by
      rw [hpix]
      exact h r hr (by rw [hdep]; rfl)
    exact imputeRow_all_some hany o ho
  unfold validate_and_clean at hok
  split at hok
  · exact Except.noConfusion hok
  · have hres : res.pixels =
        if vcDoClip rows = true then (imputedPixels rows).map (fun row => row.map clipCell)
        else imputedPixels rows := by
      cases hok; rfl
    rw [hres]
    intro prow hprow o ho
    by_cases hclip : vcDoClip rows = true
    · rw [if_pos hclip] at hprow
      rcases List.mem_map.mp hprow with ⟨prow1, hprow1, rfl⟩
      rcases List.mem_map.mp ho with ⟨o1, ho1, rfl⟩
      exact clipCell_isSome (key prow1 hprow1 o1 ho1)
    · rw [if_neg hclip] at hprow
      exact key prow hprow o ho

/-- C1 counterexample input: a single row with a valid depth and every
pixel cell missing. -/
theorem validate_and_clean_emits_nan_on_all_missing_row :
    (validate_and_clean allMissingPixelsInput).toOption.map
        (fun r => (r.depths, r.pixels))
      = some ([2], [[none, none]]) := by decide

/-- C1 witness input: one row, depth 1, single present pixel 10. -/
theorem validate_and_clean_no_nan_witness :
    c1Result.pixels.all (fun prow => prow.all (fun o => o.isSome)) = true := by
  have h := validate_and_clean_no_nan_of_pixel_present c1Input (by decide) c1Result rfl
  simp only [List.all_eq_true]
  exact h

/-- The concrete scenario table of C3. -/
theorem validate_and_clean_scenario :
    (validate_and_clean c3Input).toOption.map
        (fun r => (r.depths, r.pixels, r.report.duplicate_depths_dropped))
      = some ([1, 2], [[some 10, some 20], [some 5, some 5]], 1) := by
  have hd : dedupedPairs c3Input
      = [((1 : ℚ), [some 10, some 20]), ((2 : ℚ), [some 5, none])] := by decide
  have himp : imputedPixels c3Input = [[some 10, some 20], [some 5, some 5]] := by
    rw [imputedPixels, hd]
    norm_num [imputeRow, List.filterMap_cons, List.filterMap_nil]
  have hdep : cleanDepths c3Input = [1, 2] := by rw [cleanDepths, hd]; rfl
  have hdup : (sortedPairs c3Input).length - (dedupedPairs c3Input).length = 1 := by
    decide
  have hclip : vcDoClip c3Input = false := by
    unfold vcDoClip
    rw [himp]
    rfl
  unfold validate_and_clean
  rw [himp, if_neg (by decide)]
  simp [Except.toOption, hdep, hdup, hclip]

end DepthFrame
